import Mathlib

/-!
# Shared-memory segment pool and chunked transfer protocol

A shallow embedding of `handle_with_cache.c` (segment pool, consumer side) and of
`cache_worker` in `simplecached.c` (producer side).

Modelling conventions
* `size_t` values are natural numbers below `2 ^ 64`; `(size_t)-1` is `SIZE_MAX`.
* A POSIX semaphore is its counter: `sem_post` adds one, `sem_wait` is enabled only
  when the counter is positive and then subtracts one.
* Each party has its own header.  The consumer's `shm_object_t` is allocated with
  `malloc` in `shm_pool_init` (line 83) and its semaphores are initialised there (lines
  113-115); the producer overlays `shm_object_t` on the region it maps
  (`simplecached.c:171`).  No code copies one into the other.  The composed system
  keeps both headers; the models of one party alone take what the other side does as
  an environment.
* The `addr` field of the consumer's header is its mapping of the region.  The `addr`
  field of the producer's overlay is a part of the region that no code writes; the
  region is zero-filled when `ftruncate` sizes it, so that field is `NULL`.
* `shm_fd` carries no protocol state and is left out of the record; so is `addr`, which
  the composed system keeps beside the overlay.
-/

namespace GiosCache

/-! ## Data model (`cache-student.h`) -/

/-- The value of `(size_t)-1`. -/
def SIZE_MAX : Nat := 2 ^ 64 - 1

/-- The header of one segment: `shm_object_t` without its OS handles. -/
structure shm_object_t where
  name : String
  file_size : Nat
  used : Int
  write_complete : Nat
  read_complete : Nat
  chunk_ready : Nat
  status : Int
  current_chunk_size : Nat
deriving DecidableEq, Repr

/-- Modelled from the spec: `steque_t` (declared in `steque.h`, which is not part of the
sources) is the ordered container of free segments; only its enqueue / dequeue /
empty-check contract is used. -/
abbrev steque_t := List shm_object_t

/-- Modelled from the spec: `steque_enqueue` appends at the back of the queue. -/
def steque_enqueue (q : steque_t) (x : shm_object_t) : steque_t := q ++ [x]

/-- Modelled from the spec: `steque_isempty`. -/
def steque_isempty (q : steque_t) : Bool := q.isEmpty

/-- Modelled from the spec: `steque_pop` removes and returns the front item. -/
def steque_pop (q : steque_t) : Option (shm_object_t × steque_t) :=
  match q with
  | [] => none
  | x :: rest => some (x, rest)

/-- The pool `shm_pool_t`; the mutex and the condition variable are represented by the
atomicity of `shm_pool_acquire` and `shm_pool_release`. -/
structure shm_pool_t where
  shm_queue : steque_t
  total_segments : Nat
  segment_size : Nat
deriving DecidableEq, Repr

/-! ## Segment pool (`handle_with_cache.c`, lines 74-123 and 175-199) -/

/-- The text written by `snprintf(name, sizeof name, "/shm_seg_%zu", i)`.  For every
`size_t` value `i` the text has at most 29 characters, so the 64-byte buffer never
truncates it. -/
def shm_seg_name (i : Nat) : String := "/shm_seg_" ++ toString i

/-- The body of the `for` loop of `shm_pool_init` for index `i`: a fresh segment with
cleared header and semaphores initialised to 0. -/
def shm_pool_init_segment (i : Nat) : shm_object_t :=
  { name := shm_seg_name i
    file_size := 0
    used := 0
    write_complete := 0
    read_complete := 0
    chunk_ready := 0
    status := 0
    current_chunk_size := 0 }

/-- The function `shm_pool_init(num_segments, segment_size)` on the path where every
allocation succeeds (any failure exits the process).  `num_segments` is a non-negative
`int`. -/
def shm_pool_init (num_segments : Nat) (segment_size : Nat) : shm_pool_t :=
  { shm_queue :=
      (List.range num_segments).foldl
        (fun q i => steque_enqueue q (shm_pool_init_segment i)) []
    total_segments := num_segments
    segment_size := segment_size }

/-- The function `shm_pool_acquire()`.  `none` is the caller staying in
`pthread_cond_wait` because the queue is empty; otherwise the front segment is popped
and returned with `used = 1`. -/
def shm_pool_acquire (p : shm_pool_t) : Option (shm_object_t × shm_pool_t) :=
  if steque_isempty p.shm_queue then none
  else
    match steque_pop p.shm_queue with
    | none => none
    | some (shm_obj, rest) => some ({ shm_obj with used := 1 }, { p with shm_queue := rest })

/-- The four assignments at the top of `shm_pool_release` (lines 189-192). -/
def release_clear (o : shm_object_t) : shm_object_t :=
  { o with used := 0, file_size := 0, current_chunk_size := 0, status := 0 }

/-- The function `shm_pool_release(shm_obj)`: clears the header fields and enqueues the
segment. -/
def shm_pool_release (p : shm_pool_t) (shm_obj : shm_object_t) : shm_pool_t :=
  { p with shm_queue := steque_enqueue p.shm_queue (release_clear shm_obj) }

/-- The pool together with the segments currently held by callers of
`shm_pool_acquire` (the outstanding leases). -/
structure PoolSys where
  pool : shm_pool_t
  leased : List shm_object_t
deriving DecidableEq, Repr

/-- One pool operation.  `release o` hands back the segment whose identifier is
`o.name`, with whatever header contents `o` the lease holder left in it. -/
inductive PoolOp where
  | acquire
  | release (o : shm_object_t)
deriving DecidableEq, Repr

/-- The state right after `shm_pool_init`: every segment free, no lease. -/
def PoolSys.init (num_segments segment_size : Nat) : PoolSys :=
  { pool := shm_pool_init num_segments segment_size, leased := [] }

/-- One completed pool operation.  `none` when the operation does not complete
(`acquire` on an empty queue) or is outside the contract (`release` of a segment that
is not currently leased). -/
def PoolSys.step (s : PoolSys) : PoolOp → Option PoolSys
  | .acquire =>
    match shm_pool_acquire s.pool with
    | none => none
    | some (o, p) => some { pool := p, leased := o :: s.leased }
  | .release o =>
    if o.name ∈ s.leased.map (·.name) then
      some { pool := shm_pool_release s.pool o
             leased := s.leased.eraseP (fun l => l.name == o.name) }
    else none

/-- A finite sequence of completed pool operations. -/
def PoolSys.run (s : PoolSys) : List PoolOp → Option PoolSys
  | [] => some s
  | op :: ops =>
    match s.step op with
    | none => none
    | some s1 => s1.run ops

/-! ## External collaborators -/

/-- One byte of file content. -/
abbrev Byte := Nat

/-- The two `gfstatus_t` values used by `handle_with_cache` (the enumeration is declared
in `gfserver.h`, which is not part of the sources; only the two names are used). -/
inductive gfstatus_t where
  | GF_OK
  | GF_FILE_NOT_FOUND
deriving DecidableEq, Repr

/-- The return value of `read(fd, dest, count)` on a regular file with the given
content and file position `off`.  `ans` is the kernel's answer for this call: `none`
is an I/O error (`-1`), `some k` is the number of bytes it is willing to transfer.
POSIX: the result is at most `count`, at most the bytes left, and `0` only at end of
file (or for `count = 0`). -/
def sys_read (ans : Option Nat) (content : List Byte) (off count : Nat) : Int :=
  match ans with
  | none => -1
  | some k => ((min (max k 1) (min count (content.length - off)) : Nat) : Int)

/-- The bytes `read` leaves in the destination buffer: the `n` bytes of the file
starting at the file position. -/
def file_bytes (content : List Byte) (off n : Nat) : List Byte :=
  (content.drop off).take n

/-- A kernel that always transfers as many bytes as requested (no short reads). -/
def full_reads : Nat → Option Nat := fun _ => some SIZE_MAX

/-! ## Request channel, consumer side (`send_request_to_cache`, lines 125-152) -/

/-- The message-queue calls made by `send_request_to_cache`. -/
inductive MqEvent where
  | mq_open
  | mq_send (shm_name : String) (shm_size : Nat)
  | mq_close
deriving DecidableEq, Repr

/-- The function `send_request_to_cache(path, shm_name, shm_size)`; `mq_open_ok` and
`mq_send_ok` say whether the two message-queue calls succeed.  Returns the `int`
result and the calls made, in order. -/
def send_request_to_cache (mq_open_ok mq_send_ok : Bool) (shm_name : String)
    (shm_size : Nat) : Int × List MqEvent :=
  if !mq_open_ok then (-1, [.mq_open])
  else if !mq_send_ok then (-1, [.mq_open, .mq_send shm_name shm_size, .mq_close])
  else (0, [.mq_open, .mq_send shm_name shm_size, .mq_close])

/-! ## Consumer in isolation (`handle_with_cache`, lines 15-71) -/

/-- What the other side presents to one call of `handle_with_cache`. -/
structure ConsumerEnv where
  /-- The constant `SERVER_FAILURE` of `gfserver.h` (not part of the sources). -/
  SERVER_FAILURE : Int
  mq_open_ok : Bool
  mq_send_ok : Bool
  /-- Whether `write_complete` is ever posted for this lease. -/
  metadata_ready : Bool
  /-- The header fields published when the wait on `write_complete` returns. -/
  status : Int
  file_size : Nat
  /-- For each successive return of the wait on `chunk_ready`: the value of
  `current_chunk_size` and the contents of the payload region at that moment. -/
  chunks : List (Nat × List Byte)
  /-- The result of `gfs_send` as a function of `bytes_sent` and the length passed. -/
  gfs_send : Nat → Nat → Int

/-- The observable actions of the consumer. -/
inductive CEvent where
  | acquire (name : String)
  | mq (e : MqEvent)
  | wait_write_complete
  | sendheader (st : gfstatus_t) (len : Nat)
  | wait_chunk_ready (bytes_sent : Nat)
  | gfs_send (data : List Byte) (written : Int)
  | post_read_complete
  | release (name : String)
deriving DecidableEq, Repr

/-- How a call ends: it returns a value, or it stays blocked in a wait forever. -/
inductive Outcome where
  | returned (v : Int)
  | blocked
deriving DecidableEq, Repr

/-- The result of one call: outcome, actions in order, and the pool afterwards. -/
structure CResult where
  outcome : Outcome
  trace : List CEvent
  pool : shm_pool_t
deriving DecidableEq, Repr

/-- The `while (bytes_sent < shm_obj->file_size)` loop of `handle_with_cache` (lines
45-66) followed by the release and return of lines 69-70: outcome, pool and the actions
from the loop test on.  `chunks` are the chunk-ready returns still to come. -/
def relay_loop (env : ConsumerEnv) (shm_obj : shm_object_t) :
    List (Nat × List Byte) → Nat → shm_pool_t → CResult
  | chunks, bytes_sent, pool =>
    if bytes_sent < env.file_size then
      match chunks with
      | [] => { outcome := .blocked, trace := [.wait_chunk_ready bytes_sent], pool := pool }
      | (chunk_size, payload) :: rest =>
        if chunk_size = 0 then
          { outcome := .returned bytes_sent
            trace := [.wait_chunk_ready bytes_sent, .release shm_obj.name]
            pool := shm_pool_release pool shm_obj }
        else
          let written := env.gfs_send bytes_sent chunk_size
          if written < 0 then
            { outcome := .returned env.SERVER_FAILURE
              trace := [.wait_chunk_ready bytes_sent,
                        .gfs_send (payload.take chunk_size) written,
                        .release shm_obj.name]
              pool := shm_pool_release pool shm_obj }
          else
            let r := relay_loop env shm_obj rest (bytes_sent + written.toNat) pool
            { r with
              trace := .wait_chunk_ready bytes_sent
                :: .gfs_send (payload.take chunk_size) written
                :: .post_read_complete :: r.trace }
    else
      { outcome := .returned bytes_sent
        trace := [.release shm_obj.name]
        pool := shm_pool_release pool shm_obj }

/-- The function `handle_with_cache(ctx, path, arg)` run against the environment `env`
on the pool `pool`.  The `NULL` test of line 18 cannot succeed, since
`shm_pool_acquire` returns a segment popped from the queue.  Sizes are below `2 ^ 63`,
so `return bytes_sent` converts to `ssize_t` without change. -/
def handle_with_cache (env : ConsumerEnv) (pool : shm_pool_t) : CResult :=
  match shm_pool_acquire pool with
  | none => { outcome := .blocked, trace := [], pool := pool }
  | some (shm_obj, pool1) =>
    let req := send_request_to_cache env.mq_open_ok env.mq_send_ok shm_obj.name
      pool1.segment_size
    let tr1 : List CEvent := .acquire shm_obj.name :: req.2.map CEvent.mq
    if req.1 < 0 then
      { outcome := .returned env.SERVER_FAILURE
        trace := tr1 ++ [.release shm_obj.name]
        pool := shm_pool_release pool1 shm_obj }
    else if !env.metadata_ready then
      { outcome := .blocked, trace := tr1 ++ [.wait_write_complete], pool := pool1 }
    else if env.status = 404 ∨ env.file_size = SIZE_MAX then
      { outcome := .returned 0
        trace := tr1 ++ [.wait_write_complete, .sendheader .GF_FILE_NOT_FOUND 0,
                         .release shm_obj.name]
        pool := shm_pool_release pool1 shm_obj }
    else
      let r := relay_loop env shm_obj env.chunks 0 pool1
      { r with
        trace := tr1 ++ [.wait_write_complete, .sendheader .GF_OK env.file_size] ++ r.trace }

/-- The payload bytes handed to `gfs_send`, concatenated in order. -/
def relayed_bytes : List CEvent → List Byte
  | [] => []
  | .gfs_send data _ :: rest => data ++ relayed_bytes rest
  | _ :: rest => relayed_bytes rest

/-- The headers sent with `gfs_sendheader`, in order. -/
def headers_sent : List CEvent → List (gfstatus_t × Nat)
  | [] => []
  | .sendheader st len :: rest => (st, len) :: headers_sent rest
  | _ :: rest => headers_sent rest

/-- The values of `bytes_sent` at each wait on `chunk_ready`, in order. -/
def chunk_waits : List CEvent → List Nat
  | [] => []
  | .wait_chunk_ready b :: rest => b :: chunk_waits rest
  | _ :: rest => chunk_waits rest

/-- The number of `shm_pool_release` calls. -/
def release_count : List CEvent → Nat
  | [] => 0
  | .release _ :: rest => release_count rest + 1
  | _ :: rest => release_count rest

/-- The number of `mq_send` calls. -/
def mq_send_count : List CEvent → Nat
  | [] => 0
  | .mq (.mq_send _ _) :: rest => mq_send_count rest + 1
  | _ :: rest => mq_send_count rest

/-- The results of the `gfs_send` calls, in order. -/
def gfs_send_results : List CEvent → List Int
  | [] => []
  | .gfs_send _ written :: rest => written :: gfs_send_results rest
  | _ :: rest => gfs_send_results rest

/-! ## Producer in isolation (`cache_worker`, lines 171-208) -/

/-- The three semaphores of a segment. -/
inductive Sem where
  | write_complete
  | read_complete
  | chunk_ready
deriving DecidableEq, Repr

/-- The observable actions of the producer while it serves one request. -/
inductive PEvent where
  | store_status (status : Int)
  | store_file_size (n : Nat)
  /-- Lines 191-192: `read` leaves `data` in the payload region and its positive result
  `n` is stored in `current_chunk_size`. -/
  | store_chunk (n : Nat) (data : List Byte)
  | post_chunk_ready
  | wait_read_complete
  | post_write_complete
deriving DecidableEq, Repr

/-- The result of serving one request: whether the worker got to the end of the loop
body (`false`: it stays blocked in the wait on `read_complete`) and its actions. -/
structure PResult where
  finished : Bool
  trace : List PEvent
deriving DecidableEq, Repr

/-- The `while ((read_bytes = read(fd, dest, request.shm_size)) > 0)` loop (lines
191-200): the actions from the loop test on.  `grants` is the number of times the
consumer will post `read_complete`; `off` is the file position.  The local
`total_sent` is never read and is left out. -/
def cache_worker_loop (content : List Byte) (shm_size : Nat) (rd : Nat → Option Nat) :
    Nat → Nat → PResult
  | grants, off =>
    let read_bytes := sys_read (rd off) content off shm_size
    if read_bytes > 0 then
      match grants with
      | 0 =>
        { finished := false
          trace := [.store_chunk read_bytes.toNat (file_bytes content off read_bytes.toNat),
                    .post_chunk_ready, .wait_read_complete] }
      | g + 1 =>
        let r := cache_worker_loop content shm_size rd g (off + read_bytes.toNat)
        { r with
          trace := .store_chunk read_bytes.toNat (file_bytes content off read_bytes.toNat)
            :: .post_chunk_ready :: .wait_read_complete :: r.trace }
    else { finished := true, trace := [] }

/-- The body of `cache_worker` for one received request, after the segment has been
mapped (lines 171-208).  `lookup` is the outcome of `simplecache_get`: `none` for a
negative handle, `some content` for a readable file whose `st_size` is its length.
The post on `write_complete` (line 205) is reached only when the loop is left. -/
def cache_worker (lookup : Option (List Byte)) (shm_size : Nat) (rd : Nat → Option Nat)
    (grants : Nat) : PResult :=
  match lookup with
  | some content =>
    let r := cache_worker_loop content shm_size rd grants 0
    { finished := r.finished
      trace := .store_status 404 :: .store_file_size SIZE_MAX :: .store_status 200
        :: .store_file_size content.length
        :: (r.trace ++ if r.finished then [.post_write_complete] else []) }
  | none =>
    { finished := true
      trace := [.store_status 404, .store_file_size SIZE_MAX, .post_write_complete] }

/-- The values stored in `current_chunk_size`, in order. -/
def chunk_lengths : List PEvent → List Nat
  | [] => []
  | .store_chunk n _ :: rest => n :: chunk_lengths rest
  | _ :: rest => chunk_lengths rest

/-- The value of `current_chunk_size` at each post on `chunk_ready`, in order; `cur`
is its value before the first action. -/
def signalled_lengths (cur : Nat) : List PEvent → List Nat
  | [] => []
  | .store_chunk n _ :: rest => signalled_lengths n rest
  | .post_chunk_ready :: rest => cur :: signalled_lengths cur rest
  | _ :: rest => signalled_lengths cur rest

/-- The semaphore posts of the producer, in order. -/
def producer_posts : List PEvent → List Sem
  | [] => []
  | .post_chunk_ready :: rest => .chunk_ready :: producer_posts rest
  | .post_write_complete :: rest => .write_complete :: producer_posts rest
  | _ :: rest => producer_posts rest

/-- Whether no post on `chunk_ready` comes before the first post on `write_complete`
(when `write_complete` is never posted: whether `chunk_ready` is never posted). -/
def metadata_first : List Sem → Bool
  | [] => true
  | .chunk_ready :: _ => false
  | .write_complete :: _ => true
  | .read_complete :: rest => metadata_first rest

/-! ## Producer and consumer composed on one segment -/

/-- Program points of the producer (`cache_worker`). -/
inductive PPc where
  /-- Lines 174-175: default status and size. -/
  | start
  /-- Lines 177-185: lookup, status and size on a hit. -/
  | lookup
  /-- Lines 190-192: `read` into `shm_obj->addr` and the store to `current_chunk_size`. -/
  | read
  /-- Line 195: post on `chunk_ready`. -/
  | post_chunk
  /-- Line 198: wait on `read_complete`. -/
  | wait_consumed
  /-- Line 205: post on `write_complete`. -/
  | post_meta
  | done
deriving DecidableEq, Repr

/-- Program points of the consumer (`handle_with_cache`, after the request was sent). -/
inductive CPc where
  /-- Line 31: wait on `write_complete`. -/
  | wait_meta
  /-- Lines 34-44: miss test, header. -/
  | check
  /-- Line 45: loop test. -/
  | loop
  /-- Line 47: wait on `chunk_ready`. -/
  | wait_chunk
  /-- Lines 49-62: relay of the chunk. -/
  | relay
  /-- Line 65: post on `read_complete`. -/
  | post_consumed
  /-- Lines 69-70: release and return. -/
  | release
  | done
deriving DecidableEq, Repr

/-- What is fixed during one lease: the lookup outcome, the segment size of the
request, the answers of the kernel and of `gfs_send`, and the bytes of the mapped
region as a function of what the producer's overlay holds (the memory layout of
`shm_object_t`, which is not modelled). -/
structure World where
  found : Bool
  content : List Byte
  shm_size : Nat
  rd : Nat → Option Nat
  gfs_send : Nat → Nat → Int
  SERVER_FAILURE : Int
  region_bytes : shm_object_t → Nat → List Byte

/-- The return value of `read(fd, dest, count)` for the destination `dest`.  With
`dest = NULL` nothing can be stored: the call returns 0 when there is nothing to
transfer (`count = 0` or end of file) and `-1` (`EFAULT`) otherwise.  Any other
destination is taken to be writable. -/
def sys_read_at (dest : Nat) (ans : Option Nat) (content : List Byte) (off count : Nat) :
    Int :=
  if dest = 0 then (if count = 0 ∨ content.length ≤ off then 0 else -1)
  else sys_read ans content off count

/-- The joint state of one producer and one consumer on one leased segment.
`chdr` is the consumer's header (the `malloc`ed `shm_object_t` it got from
`shm_pool_acquire`); `region` is what the producer sees through
`(shm_object_t*)addr` on the mapped region and `region_addr` is the `addr` field of
that overlay.  `ptrace` lists the stores and semaphore calls of the producer, in
order. -/
structure Sys where
  chdr : shm_object_t
  region : shm_object_t
  region_addr : Nat
  ppc : PPc
  off : Nat
  cpc : CPc
  bytes_sent : Nat
  relayed : List Byte
  header_sent : Option (gfstatus_t × Nat)
  result : Option Int
  ptrace : List PEvent
deriving DecidableEq, Repr

/-- One step of the producer; `none` when it is blocked or has finished.  Every store
and every semaphore call goes to the overlay `region`; the bytes a successful `read`
transfers go to the memory at `dest`, which is not part of the state. -/
def producer_step (w : World) (s : Sys) : Option Sys :=
  match s.ppc with
  | .start =>
    some { s with region := { s.region with status := 404, file_size := SIZE_MAX }
                  ptrace := s.ptrace ++ [.store_status 404, .store_file_size SIZE_MAX]
                  ppc := .lookup }
  | .lookup =>
    if w.found then
      some { s with region := { s.region with status := 200, file_size := w.content.length }
                    ptrace := s.ptrace
                      ++ [.store_status 200, .store_file_size w.content.length]
                    ppc := .read }
    else some { s with ppc := .post_meta }
  | .read =>
    let dest := s.region_addr
    let read_bytes := sys_read_at dest (w.rd s.off) w.content s.off w.shm_size
    if read_bytes > 0 then
      some { s with off := s.off + read_bytes.toNat
                    region := { s.region with current_chunk_size := read_bytes.toNat }
                    ptrace := s.ptrace
                      ++ [.store_chunk read_bytes.toNat
                            (file_bytes w.content s.off read_bytes.toNat)]
                    ppc := .post_chunk }
    else some { s with ppc := .post_meta }
  | .post_chunk =>
    some { s with region := { s.region with chunk_ready := s.region.chunk_ready + 1 }
                  ptrace := s.ptrace ++ [.post_chunk_ready]
                  ppc := .wait_consumed }
  | .wait_consumed =>
    if 0 < s.region.read_complete then
      some { s with region := { s.region with read_complete := s.region.read_complete - 1 }
                    ptrace := s.ptrace ++ [.wait_read_complete]
                    ppc := .read }
    else none
  | .post_meta =>
    some { s with region := { s.region with write_complete := s.region.write_complete + 1 }
                  ptrace := s.ptrace ++ [.post_write_complete]
                  ppc := .done }
  | .done => none

/-- One step of the consumer; `none` when it is blocked or has returned.  Every header
read and every semaphore call goes to its own header `chdr`; the bytes it relays are
the first bytes of the mapped region. -/
def consumer_step (w : World) (s : Sys) : Option Sys :=
  match s.cpc with
  | .wait_meta =>
    if 0 < s.chdr.write_complete then
      some { s with chdr := { s.chdr with write_complete := s.chdr.write_complete - 1 }
                    cpc := .check }
    else none
  | .check =>
    if s.chdr.status = 404 ∨ s.chdr.file_size = SIZE_MAX then
      some { s with header_sent := some (.GF_FILE_NOT_FOUND, 0)
                    chdr := release_clear s.chdr
                    result := some 0
                    cpc := .done }
    else
      some { s with header_sent := some (.GF_OK, s.chdr.file_size)
                    bytes_sent := 0
                    cpc := .loop }
  | .loop =>
    if s.bytes_sent < s.chdr.file_size then some { s with cpc := .wait_chunk }
    else some { s with cpc := .release }
  | .wait_chunk =>
    if 0 < s.chdr.chunk_ready then
      some { s with chdr := { s.chdr with chunk_ready := s.chdr.chunk_ready - 1 }
                    cpc := .relay }
    else none
  | .relay =>
    let chunk_size := s.chdr.current_chunk_size
    if chunk_size = 0 then some { s with cpc := .release }
    else
      let written := w.gfs_send s.bytes_sent chunk_size
      if written < 0 then
        some { s with relayed :=
                        s.relayed ++ (w.region_bytes s.region s.region_addr).take chunk_size
                      chdr := release_clear s.chdr
                      result := some w.SERVER_FAILURE
                      cpc := .done }
      else
        some { s with relayed :=
                        s.relayed ++ (w.region_bytes s.region s.region_addr).take chunk_size
                      bytes_sent := s.bytes_sent + written.toNat
                      cpc := .post_consumed }
  | .post_consumed =>
    some { s with chdr := { s.chdr with read_complete := s.chdr.read_complete + 1 }
                  cpc := .loop }
  | .release =>
    some { s with chdr := release_clear s.chdr
                  result := some s.bytes_sent
                  cpc := .done }
  | .done => none

/-- One step of the pair: the preferred party moves if it can, otherwise the other
one; `none` when neither can move. -/
def Sys.step (w : World) (producer_first : Bool) (s : Sys) : Option Sys :=
  if producer_first then
    match producer_step w s with
    | some s1 => some s1
    | none => consumer_step w s
  else
    match consumer_step w s with
    | some s1 => some s1
    | none => producer_step w s

/-- The execution chosen by the schedule `sched` (which party is preferred at each
tick), cut after `fuel` steps; it stops early in a state where neither party can move. -/
def Sys.run (w : World) (sched : Nat → Bool) : Nat → Nat → Sys → Sys
  | 0, _, s => s
  | fuel + 1, t, s =>
    match Sys.step w (sched t) s with
    | none => s
    | some s1 => Sys.run w sched fuel (t + 1) s1

/-- The producer running alone for at most `fuel` steps. -/
def producer_run (w : World) : Nat → Sys → Sys
  | 0, s => s
  | fuel + 1, s =>
    match producer_step w s with
    | none => s
    | some s1 => producer_run w fuel s1

/-- The joint state when the producer has mapped the segment (line 171) and the
consumer has sent the request and reaches its first wait (line 31).  The consumer's
header is the one `shm_pool_acquire` returned: cleared, `used = 1`, semaphores at 0
(nothing but this consumer ever posts them).  `r0` is what earlier leases left in the
region (`zero_region` for a fresh segment); its `addr` field is `NULL`. -/
def Sys.start (name : String) (r0 : shm_object_t) : Sys :=
  { chdr :=
      { name := name
        file_size := 0
        used := 1
        write_complete := 0
        read_complete := 0
        chunk_ready := 0
        status := 0
        current_chunk_size := 0 }
    region := r0
    region_addr := 0
    ppc := .start
    off := 0
    cpc := .wait_meta
    bytes_sent := 0
    relayed := []
    header_sent := none
    result := none
    ptrace := [] }

/-- The joint state in which the lease of a hit ends: the producer has finished, its
overlay holds status 200 and the size and one more post on `write_complete`; the
consumer is at its first wait with its own header untouched. -/
def Sys.hit_done (w : World) (name : String) (r0 : shm_object_t) : Sys :=
  { Sys.start name r0 with
    region := { r0 with status := 200, file_size := w.content.length
                        write_complete := r0.write_complete + 1 }
    ppc := .done
    ptrace := [.store_status 404, .store_file_size SIZE_MAX, .store_status 200,
               .store_file_size w.content.length, .post_write_complete] }

/-- The joint state in which the lease of a miss ends: the producer has finished, its
overlay holds status 404 and the size sentinel and one more post on `write_complete`;
the consumer is at its first wait with its own header untouched. -/
def Sys.miss_done (name : String) (r0 : shm_object_t) : Sys :=
  { Sys.start name r0 with
    region := { r0 with status := 404, file_size := SIZE_MAX
                        write_complete := r0.write_complete + 1 }
    ppc := .done
    ptrace := [.store_status 404, .store_file_size SIZE_MAX, .post_write_complete] }

/-- The consumer is parked at its first wait, with nothing sent and nothing returned,
and the producer has signalled no chunk: what holds in every state reached from
`Sys.start`. -/
def Sys.parked (s : Sys) : Prop :=
  s.cpc = .wait_meta ∧ s.chdr.write_complete = 0 ∧ s.chdr.used = 1 ∧ s.region_addr = 0
    ∧ s.relayed = [] ∧ s.header_sent = none ∧ s.result = none ∧ s.bytes_sent = 0
    ∧ chunk_lengths s.ptrace = []
    ∧ ((producer_posts s.ptrace = []
          ∧ (s.ppc = .start ∨ s.ppc = .lookup ∨ s.ppc = .read ∨ s.ppc = .post_meta))
        ∨ (producer_posts s.ptrace = [.write_complete] ∧ s.ppc = .done))

/-! ## Auxiliary definitions used in the statements and proofs -/

/-- A consumer environment for a 5-byte file delivered in chunks of 2, 2 and 1 bytes
through a payload region of 2 bytes. -/
def sample_env : ConsumerEnv :=
  { SERVER_FAILURE := -1
    mq_open_ok := true
    mq_send_ok := true
    metadata_ready := true
    status := 200
    file_size := 5
    chunks := [(2, [10, 20]), (2, [30, 40]), (1, [50, 40])]
    gfs_send := fun _ n => n }

/-- The environment `sample_env` with the second relay failing. -/
def sample_env_relay_fails : ConsumerEnv :=
  { sample_env with gfs_send := fun b n => if b = 2 then -1 else n }

/-- The number denoted by a list of decimal digit characters. -/
def decimal_value (l : List Char) : Nat :=
  l.foldl (fun a c => 10 * a + (c.toNat - 48)) 0

/-- The names of the leased and of the free segments. -/
def PoolSys.names (s : PoolSys) : List String :=
  s.leased.map (·.name) ++ s.pool.shm_queue.map (·.name)

/-- A state with both segments of a pool of two leased out. -/
def two_leased : PoolSys :=
  { pool := { shm_queue := [], total_segments := 2, segment_size := 1024 }
    leased := [{ shm_pool_init_segment 1 with used := 1 },
               { shm_pool_init_segment 0 with used := 1 }] }

/-- A pool of three after segment 0 was leased and released and segment 1 is leased. -/
def one_leased : PoolSys :=
  { pool := { shm_queue := [shm_pool_init_segment 2, shm_pool_init_segment 0]
              total_segments := 3, segment_size := 1024 }
    leased := [{ shm_pool_init_segment 1 with used := 1 }] }

/-- Two acquires, then the release of segment 0 after a miss was published in it. -/
def lease_two_release_one : List PoolOp :=
  [.acquire, .acquire,
   .release { shm_pool_init_segment 0 with used := 1, status := 404, file_size := SIZE_MAX }]

/-- A hit: the lookup resolves the path to a 5-byte file; the segment has 1024 bytes. -/
def sample_world : World :=
  { found := true
    content := [10, 20, 30, 40, 50]
    shm_size := 1024
    rd := full_reads
    gfs_send := fun _ n => n
    SERVER_FAILURE := -1
    region_bytes := fun _ _ => [] }

/-- A miss: the lookup cannot resolve the path; the segment has 1024 bytes. -/
def miss_world : World :=
  { sample_world with found := false, content := [] }

/-! # Properties -/

/-! ## Decimal rendering -/

theorem decimal_value_append (l : List Char) (c : Char) :
    decimal_value (l ++ [c]) = 10 * decimal_value l + (c.toNat - 48) := by
  simp [decimal_value, List.foldl_append]

theorem digitChar_value (k : Nat) (hk : k < 10) : (Nat.digitChar k).toNat - 48 = k := by
  interval_cases k <;> rfl

theorem toDigitsCore_value (fuel : Nat) : ∀ (n : Nat) (ds : List Char), n < fuel →
    ∃ pre, Nat.toDigitsCore 10 fuel n ds = pre ++ ds ∧ decimal_value pre = n := by
  induction fuel with
  | zero => intro n ds h; omega
  | succ f ih =>
    intro n ds h
    unfold Nat.toDigitsCore
    by_cases h0 : n / 10 = 0
    · simp only [h0, if_true]
      refine ⟨[Nat.digitChar (n % 10)], by simp, ?_⟩
      have := digitChar_value (n % 10) (Nat.mod_lt _ (by decide))
      simp [decimal_value, this]
      omega
    · simp only [h0, if_false]
      obtain ⟨pre, hpre, hval⟩ := ih (n / 10) (Nat.digitChar (n % 10) :: ds) (by omega)
      refine ⟨pre ++ [Nat.digitChar (n % 10)], by simp [hpre], ?_⟩
      rw [decimal_value_append, hval, digitChar_value (n % 10) (Nat.mod_lt _ (by decide))]
      omega

theorem toString_nat_injective (i j : Nat) (h : toString i = toString j) : i = j := by
  have hi := toDigitsCore_value (i + 1) i [] (by omega)
  have hj := toDigitsCore_value (j + 1) j [] (by omega)
  obtain ⟨pi, hpi, hvi⟩ := hi
  obtain ⟨pj, hpj, hvj⟩ := hj
  have h1 : Nat.toDigits 10 i = Nat.toDigits 10 j := by
    have h2 : (Nat.toDigits 10 i).asString = (Nat.toDigits 10 j).asString := h
    exact congrArg String.data h2
  simp only [Nat.toDigits] at h1
  rw [hpi, hpj] at h1
  simp only [List.append_nil] at h1
  rw [← hvi, ← hvj, h1]

theorem shm_seg_name_injective (i j : Nat) (h : shm_seg_name i = shm_seg_name j) : i = j := by
  apply toString_nat_injective
  unfold shm_seg_name at h
  have h2 := congrArg String.data h
  simp only [String.data_append] at h2
  exact String.ext (List.append_cancel_left h2)

/-! ## Pool invariants -/

theorem foldl_enqueue (l : List Nat) (acc : steque_t) :
    l.foldl (fun q i => steque_enqueue q (shm_pool_init_segment i)) acc
      = acc ++ l.map shm_pool_init_segment := by
  induction l generalizing acc with
  | nil => simp
  | cons a l ih =>
    rw [List.foldl_cons, ih]
    simp [steque_enqueue]

theorem shm_pool_init_queue (N size : Nat) :
    (shm_pool_init N size).shm_queue = (List.range N).map shm_pool_init_segment := by
  simp [shm_pool_init, foldl_enqueue]

theorem shm_pool_init_names (N size : Nat) :
    (shm_pool_init N size).shm_queue.map (·.name) = (List.range N).map shm_seg_name := by
  rw [shm_pool_init_queue]
  simp [List.map_map, Function.comp_def, shm_pool_init_segment]

theorem init_names_nodup (N : Nat) : ((List.range N).map shm_seg_name).Nodup :=
  (List.nodup_range N).map (fun i j h => shm_seg_name_injective i j h)

theorem shm_pool_acquire_cons (p : shm_pool_t) (h : shm_object_t) (t : steque_t)
    (hq : p.shm_queue = h :: t) :
    shm_pool_acquire p = some ({ h with used := 1 }, { p with shm_queue := t }) := by
  simp [shm_pool_acquire, steque_isempty, steque_pop, hq]

theorem shm_pool_acquire_nil (p : shm_pool_t) (hq : p.shm_queue = []) :
    shm_pool_acquire p = none := by
  simp [shm_pool_acquire, steque_isempty, hq]

theorem eraseP_names_perm (n : String) (l : List shm_object_t)
    (h : n ∈ l.map (·.name)) :
    (l.map (·.name)).Perm (n :: (l.eraseP (fun x => x.name == n)).map (·.name)) := by
  induction l with
  | nil => simp at h
  | cons a l ih =>
    by_cases ha : a.name = n
    · simp [List.eraseP_cons, ha]
    · have hmem : n ∈ l.map (·.name) := by
        simp only [List.map_cons, List.mem_cons] at h
        rcases h with h | h
        · exact absurd h.symm ha
        · exact h
      have hb : (a.name == n) = false := by simpa using ha
      simp only [List.eraseP_cons, hb, List.map_cons]
      exact ((ih hmem).cons a.name).trans (List.Perm.swap n a.name _)

theorem PoolSys.step_names (s s1 : PoolSys) (op : PoolOp) (h : s.step op = some s1) :
    s1.names.Perm s.names ∧ s1.pool.total_segments = s.pool.total_segments
      ∧ ((∀ o ∈ s.leased, o.used = 1) → ∀ o ∈ s1.leased, o.used = 1) := by
  cases op with
  | acquire =>
    cases hq : s.pool.shm_queue with
    | nil => simp [PoolSys.step, shm_pool_acquire_nil _ hq] at h
    | cons a t =>
      simp only [PoolSys.step, shm_pool_acquire_cons _ a t hq, Option.some.injEq] at h
      subst h
      refine ⟨?_, rfl, ?_⟩
      · simp only [PoolSys.names, hq, List.map_cons, List.cons_append]
        exact List.perm_middle.symm
      · intro hu o ho
        simp only [List.mem_cons] at ho
        rcases ho with ho | ho
        · subst ho; rfl
        · exact hu o ho
  | release o =>
    simp only [PoolSys.step] at h
    split at h
    · rename_i hmem
      simp only [Option.some.injEq] at h
      subst h
      refine ⟨?_, rfl, ?_⟩
      · simp only [PoolSys.names, shm_pool_release, steque_enqueue, release_clear,
          List.map_append, List.map_cons, List.map_nil]
        have hp := eraseP_names_perm o.name s.leased hmem
        refine List.Perm.trans ?_ (hp.append_right _).symm
        simp only [List.cons_append]
        rw [← List.append_assoc]
        exact List.perm_append_singleton _ _
      · intro hu x hx
        exact hu x (List.mem_of_mem_eraseP hx)
    · simp at h

/-- What holds in every state reached from `PoolSys.init N size`. -/
theorem PoolSys.run_names (ops : List PoolOp) :
    ∀ (s0 s : PoolSys), s0.run ops = some s →
      s.names.Perm s0.names ∧ s.pool.total_segments = s0.pool.total_segments
        ∧ ((∀ o ∈ s0.leased, o.used = 1) → ∀ o ∈ s.leased, o.used = 1) := by
  induction ops with
  | nil =>
    intro s0 s h
    simp only [PoolSys.run, Option.some.injEq] at h
    subst h
    exact ⟨List.Perm.refl _, rfl, fun h => h⟩
  | cons op ops ih =>
    intro s0 s h
    simp only [PoolSys.run] at h
    cases hs : s0.step op with
    | none => simp [hs] at h
    | some s1 =>
      simp only [hs] at h
      obtain ⟨h1, h2, h3⟩ := PoolSys.step_names s0 s1 op hs
      obtain ⟨h4, h5, h6⟩ := ih s1 s h
      exact ⟨h4.trans h1, h5.trans h2, fun hu => h6 (h3 hu)⟩

theorem PoolSys.reach_names (N size : Nat) (ops : List PoolOp) (s : PoolSys)
    (h : (PoolSys.init N size).run ops = some s) :
    s.names.Perm ((List.range N).map shm_seg_name) ∧ s.pool.total_segments = N
      ∧ ∀ o ∈ s.leased, o.used = 1 := by
  obtain ⟨h1, h2, h3⟩ := PoolSys.run_names ops _ s h
  refine ⟨?_, h2, h3 (by simp [PoolSys.init])⟩
  simpa [PoolSys.names, PoolSys.init, shm_pool_init_names] using h1

/-- C1. Pool size invariant: the pool built by `shm_pool_init(N, size)` has `N` free
segments, and after every finite sequence of completed acquire and release operations
(release only of a currently leased segment) the number of free segments plus the
number of leased segments is `N`, which is also `total_segments`. -/
theorem pool_size_invariant (N size : Nat) (ops : List PoolOp) (s : PoolSys)
    (h : (PoolSys.init N size).run ops = some s) :
    (PoolSys.init N size).pool.shm_queue.length = N
      ∧ (PoolSys.init N size).leased.length = 0
      ∧ s.pool.shm_queue.length + s.leased.length = N
      ∧ s.pool.total_segments = N := by
  obtain ⟨h1, h2, _⟩ := PoolSys.reach_names N size ops s h
  refine ⟨by simp [PoolSys.init, shm_pool_init_queue], rfl, ?_, h2⟩
  have := h1.length_eq
  simp only [PoolSys.names, List.length_append, List.length_map, List.length_range] at this
  omega

theorem pool_size_invariant_witness :
    (PoolSys.init 3 1024).run lease_two_release_one = some one_leased
      ∧ one_leased.pool.shm_queue.length + one_leased.leased.length = 3 :=
  ⟨by decide,
   (pool_size_invariant 3 1024 lease_two_release_one one_leased (by decide)).2.2.1⟩

/-- C2. Mutual exclusion of leases: `shm_pool_init` names the `N` segments
`/shm_seg_0` .. `/shm_seg_<N-1>`, these names are pairwise distinct, and in every
state reached by completed acquire and release operations (release only of a currently
leased segment) no name is held by two outstanding leases and no leased segment is in
the free queue. -/
theorem lease_mutual_exclusion (N size : Nat) (ops : List PoolOp) (s : PoolSys)
    (h : (PoolSys.init N size).run ops = some s) :
    (PoolSys.init N size).pool.shm_queue.map (·.name)
        = (List.range N).map (fun i => "/shm_seg_" ++ toString i)
      ∧ (∀ i j : Nat, "/shm_seg_" ++ toString i = "/shm_seg_" ++ toString j → i = j)
      ∧ ((PoolSys.init N size).pool.shm_queue.map (·.name)).Nodup
      ∧ (s.leased.map (·.name)).Nodup
      ∧ (∀ o ∈ s.leased, ∀ f ∈ s.pool.shm_queue, o.name ≠ f.name)
      ∧ (s.pool.shm_queue.map (·.name)).Nodup := by
  obtain ⟨h1, _, _⟩ := PoolSys.reach_names N size ops s h
  have hnd : s.names.Nodup := h1.nodup_iff.mpr (init_names_nodup N)
  have hinit := shm_pool_init_names N size
  refine ⟨hinit, shm_seg_name_injective, ?_, ?_, ?_, ?_⟩
  · show ((shm_pool_init N size).shm_queue.map (·.name)).Nodup
    rw [hinit]
    exact init_names_nodup N
  · exact (List.nodup_append.mp hnd).1
  · intro o ho f hf heq
    have hdis := (List.nodup_append.mp hnd).2.2
    exact hdis (List.mem_map_of_mem _ ho) (heq ▸ List.mem_map_of_mem _ hf)
  · exact (List.nodup_append.mp hnd).2.1

theorem lease_mutual_exclusion_witness :
    (PoolSys.init 3 1024).run lease_two_release_one = some one_leased
      ∧ (one_leased.leased.map (·.name)).Nodup
      ∧ (∀ o ∈ one_leased.leased, ∀ f ∈ one_leased.pool.shm_queue, o.name ≠ f.name) :=
  have h := lease_mutual_exclusion 3 1024 lease_two_release_one one_leased (by decide)
  ⟨by decide, h.2.2.2.1, h.2.2.2.2.1⟩

/-- C10. Acquire contract and capacity bound: `shm_pool_acquire` completes exactly when
the free queue is non-empty; it then removes the head of the queue, returns it with
`used = 1` and leaves the rest of the queue in place.  In every reachable state the
outstanding leases are at most `N` and each has `used = 1`.  With `N = 2`, after two
acquires a third cannot complete, and after the release of either lease it completes. -/
theorem acquire_contract (N size : Nat) (ops : List PoolOp) (s : PoolSys)
    (h : (PoolSys.init N size).run ops = some s) :
    (∀ p : shm_pool_t, shm_pool_acquire p = none ↔ p.shm_queue = [])
      ∧ (∀ (p p1 : shm_pool_t) (o : shm_object_t), shm_pool_acquire p = some (o, p1) →
          ∃ head, p.shm_queue = head :: p1.shm_queue ∧ o = { head with used := 1 }
            ∧ o.used = 1 ∧ p1.total_segments = p.total_segments
            ∧ p1.segment_size = p.segment_size)
      ∧ s.leased.length ≤ N
      ∧ (∀ o ∈ s.leased, o.used = 1)
      ∧ (s.leased.length = N → s.step .acquire = none)
      ∧ (PoolSys.init 2 size).run [.acquire, .acquire]
          = some { two_leased with pool := { two_leased.pool with segment_size := size } }
      ∧ (∀ s2, (PoolSys.init 2 size).run [.acquire, .acquire] = some s2 →
          s2.step .acquire = none
            ∧ ∀ o ∈ s2.leased, ∃ s3, s2.step (.release o) = some s3
                ∧ (s3.step .acquire).isSome = true) := by
  obtain ⟨h1, h2, h3⟩ := PoolSys.reach_names N size ops s h
  have hlen := h1.length_eq
  simp only [PoolSys.names, List.length_append, List.length_map, List.length_range] at hlen
  have hnil : ∀ p : shm_pool_t, shm_pool_acquire p = none ↔ p.shm_queue = [] := by
    intro p
    constructor
    · intro hp
      cases hq : p.shm_queue with
      | nil => rfl
      | cons a t => simp [shm_pool_acquire_cons p a t hq] at hp
    · exact shm_pool_acquire_nil p
  have hrun2 : (PoolSys.init 2 size).run [.acquire, .acquire]
      = some { two_leased with pool := { two_leased.pool with segment_size := size } } := by
    simp [PoolSys.run, PoolSys.step, PoolSys.init, shm_pool_init, shm_pool_acquire,
      steque_isempty, steque_pop, steque_enqueue, List.range, List.range.loop, two_leased]
  refine ⟨hnil, ?_, by omega, h3, ?_, hrun2, ?_⟩
  · intro p p1 o hp
    cases hq : p.shm_queue with
    | nil => simp [shm_pool_acquire_nil p hq] at hp
    | cons a t =>
      simp only [shm_pool_acquire_cons p a t hq, Option.some.injEq, Prod.mk.injEq] at hp
      obtain ⟨ho, hp1⟩ := hp
      subst ho hp1
      exact ⟨a, rfl, rfl, rfl, rfl, rfl⟩
  · intro hfull
    have hq : s.pool.shm_queue = [] := List.length_eq_zero.mp (by omega)
    simp [PoolSys.step, shm_pool_acquire_nil _ hq]
  · intro s2 hs2
    rw [hrun2] at hs2
    simp only [Option.some.injEq] at hs2
    subst hs2
    refine ⟨by simp [PoolSys.step, shm_pool_acquire, steque_isempty, two_leased], ?_⟩
    intro o ho
    have hmem : o.name ∈ List.map (·.name) two_leased.leased := List.mem_map_of_mem _ ho
    refine ⟨_, by simp only [PoolSys.step]; rw [if_pos hmem], ?_⟩
    simp [PoolSys.step, shm_pool_release, shm_pool_acquire, steque_enqueue, steque_isempty,
      steque_pop, two_leased]

theorem acquire_contract_witness :
    (PoolSys.init 3 1024).run lease_two_release_one = some one_leased
      ∧ one_leased.leased.length ≤ 3
      ∧ (∀ o ∈ one_leased.leased, o.used = 1) :=
  have h := acquire_contract 3 1024 lease_two_release_one one_leased (by decide)
  ⟨by decide, h.2.2.1, h.2.2.2.1⟩

/-! ## Consumer in isolation -/

theorem relayed_bytes_append (a b : List CEvent) :
    relayed_bytes (a ++ b) = relayed_bytes a ++ relayed_bytes b := by
  induction a with
  | nil => rfl
  | cons e a ih => cases e <;> simp [relayed_bytes, ih]

theorem headers_sent_append (a b : List CEvent) :
    headers_sent (a ++ b) = headers_sent a ++ headers_sent b := by
  induction a with
  | nil => rfl
  | cons e a ih => cases e <;> simp [headers_sent, ih]

theorem chunk_waits_append (a b : List CEvent) :
    chunk_waits (a ++ b) = chunk_waits a ++ chunk_waits b := by
  induction a with
  | nil => rfl
  | cons e a ih => cases e <;> simp [chunk_waits, ih]

theorem release_count_append (a b : List CEvent) :
    release_count (a ++ b) = release_count a + release_count b := by
  induction a with
  | nil => simp [release_count]
  | cons e a ih =>
    cases e <;> simp [release_count, ih]
    omega

theorem gfs_send_results_append (a b : List CEvent) :
    gfs_send_results (a ++ b) = gfs_send_results a ++ gfs_send_results b := by
  induction a with
  | nil => rfl
  | cons e a ih => cases e <;> simp [gfs_send_results, ih]

theorem mq_send_count_append (a b : List CEvent) :
    mq_send_count (a ++ b) = mq_send_count a + mq_send_count b := by
  induction a with
  | nil => simp [mq_send_count]
  | cons e a ih =>
    cases e with
    | mq m =>
      cases m <;> simp [mq_send_count, ih]
      omega
    | _ => simp [mq_send_count, ih]

/-- What the relay loop does in general: when it returns, the segment has been released
exactly once, as the last action; a failed `gfs_send` is the last `gfs_send` and makes
the call return `SERVER_FAILURE`. -/
theorem relay_loop_general (env : ConsumerEnv) (shm_obj : shm_object_t) :
    ∀ (chunks : List (Nat × List Byte)) (b : Nat) (pool : shm_pool_t),
      mq_send_count (relay_loop env shm_obj chunks b pool).trace = 0
        ∧ headers_sent (relay_loop env shm_obj chunks b pool).trace = []
        ∧ (∀ w ∈ (gfs_send_results (relay_loop env shm_obj chunks b pool).trace).dropLast,
            0 ≤ w)
        ∧ ((∃ w ∈ gfs_send_results (relay_loop env shm_obj chunks b pool).trace, w < 0) →
            (relay_loop env shm_obj chunks b pool).outcome = .returned env.SERVER_FAILURE
              ∧ (relay_loop env shm_obj chunks b pool).pool = shm_pool_release pool shm_obj
              ∧ release_count (relay_loop env shm_obj chunks b pool).trace = 1
              ∧ (relay_loop env shm_obj chunks b pool).trace.getLast?
                  = some (.release shm_obj.name)) := by
  intro chunks
  induction chunks with
  | nil =>
    intro b pool
    unfold relay_loop
    split <;> simp [mq_send_count, headers_sent, gfs_send_results]
  | cons c rest ih =>
    intro b pool
    obtain ⟨cs, payload⟩ := c
    unfold relay_loop
    by_cases hlt : b < env.file_size
    · by_cases hcs : cs = 0
      · simp [hlt, hcs, mq_send_count, headers_sent, gfs_send_results]
      · by_cases hw : env.gfs_send b cs < 0
        · simp [hlt, hcs, hw, mq_send_count, headers_sent, gfs_send_results, release_count]
        · obtain ⟨h1, h2, h3, h4⟩ := ih (b + (env.gfs_send b cs).toNat) pool
          simp only [hlt, if_true, hcs, if_false, hw]
          refine ⟨by simpa [mq_send_count] using h1, by simpa [headers_sent] using h2, ?_, ?_⟩
          · intro w hwm
            simp only [gfs_send_results] at hwm
            cases hres : gfs_send_results
                (relay_loop env shm_obj rest (b + (env.gfs_send b cs).toNat) pool).trace with
            | nil => simp [hres] at hwm
            | cons x xs =>
              rw [hres, List.dropLast_cons₂] at hwm
              simp only [List.mem_cons] at hwm
              rcases hwm with hwm | hwm
              · omega
              · exact h3 w (by rw [hres]; exact hwm)
          · rintro ⟨w, hwm, hneg⟩
            simp only [gfs_send_results, List.mem_cons] at hwm
            have hex : ∃ w ∈ gfs_send_results
                (relay_loop env shm_obj rest (b + (env.gfs_send b cs).toNat) pool).trace,
                w < 0 := by
              rcases hwm with hwm | hwm
              · omega
              · exact ⟨w, hwm, hneg⟩
            obtain ⟨g1, g2, g3, g4⟩ := h4 hex
            refine ⟨g1, g2, by simpa [release_count] using g3, ?_⟩
            cases htr : (relay_loop env shm_obj rest
                (b + (env.gfs_send b cs).toNat) pool).trace with
            | nil => simp [htr] at g4
            | cons e es =>
              rw [htr] at g4
              simpa [List.getLast?_cons_cons] using g4
    · simp [hlt, mq_send_count, headers_sent, gfs_send_results]

theorem getLast?_append_some {α : Type} (l es : List α) (x : α)
    (h : es.getLast? = some x) : (l ++ es).getLast? = some x := by
  rw [List.getLast?_append, h]
  rfl

theorem send_request_general (o s : Bool) (name : String) (size : Nat) :
    ((send_request_to_cache o s name size).1 < 0 ↔ (o = false ∨ s = false))
      ∧ ((send_request_to_cache o s name size).1 = 0 ∨
          (send_request_to_cache o s name size).1 = -1)
      ∧ mq_send_count ((send_request_to_cache o s name size).2.map CEvent.mq) ≤ 1
      ∧ release_count ((send_request_to_cache o s name size).2.map CEvent.mq) = 0
      ∧ gfs_send_results ((send_request_to_cache o s name size).2.map CEvent.mq) = []
      ∧ headers_sent ((send_request_to_cache o s name size).2.map CEvent.mq) = [] := by
  cases o <;> cases s <;>
    simp [send_request_to_cache, mq_send_count, release_count, gfs_send_results, headers_sent]

theorem release_names_perm (pool : shm_pool_t) (seg : shm_object_t) (rest : steque_t)
    (hpq : pool.shm_queue = seg :: rest) :
    (shm_pool_release { pool with shm_queue := rest } { seg with used := 1 }).shm_queue
        = rest ++ [release_clear { seg with used := 1 }]
      ∧ ((shm_pool_release { pool with shm_queue := rest }
            { seg with used := 1 }).shm_queue.map (·.name)).Perm
          (pool.shm_queue.map (·.name))
      ∧ (shm_pool_release { pool with shm_queue := rest }
            { seg with used := 1 }).total_segments = pool.total_segments := by
  refine ⟨rfl, ?_, rfl⟩
  rw [hpq]
  simp only [shm_pool_release, steque_enqueue, release_clear, List.map_append, List.map_cons,
    List.map_nil]
  exact List.perm_append_singleton _ _

/-- C9. Per-request failure handling: if `send_request_to_cache` returns a negative
value, or a `gfs_send` returns a negative value, `handle_with_cache` returns
`SERVER_FAILURE`; the acquired segment is released exactly once, as the last action, so
the free queue holds the same segments as before the call; `mq_send` is called at most
once and no `gfs_send` follows a failed one. -/
theorem failure_handling (env : ConsumerEnv) (pool : shm_pool_t) (seg : shm_object_t)
    (rest : steque_t) (hpq : pool.shm_queue = seg :: rest)
    (hfail : (send_request_to_cache env.mq_open_ok env.mq_send_ok seg.name
                pool.segment_size).1 < 0
      ∨ ∃ w ∈ gfs_send_results (handle_with_cache env pool).trace, w < 0) :
    (handle_with_cache env pool).outcome = .returned env.SERVER_FAILURE
      ∧ release_count (handle_with_cache env pool).trace = 1
      ∧ (handle_with_cache env pool).trace.getLast? = some (.release seg.name)
      ∧ (handle_with_cache env pool).pool.shm_queue
          = rest ++ [release_clear { seg with used := 1 }]
      ∧ ((handle_with_cache env pool).pool.shm_queue.map (·.name)).Perm
          (pool.shm_queue.map (·.name))
      ∧ (handle_with_cache env pool).pool.shm_queue.length = pool.shm_queue.length
      ∧ mq_send_count (handle_with_cache env pool).trace ≤ 1
      ∧ (∀ w ∈ (gfs_send_results (handle_with_cache env pool).trace).dropLast, 0 ≤ w) := by
  obtain ⟨q1, q2, _⟩ := release_names_perm pool seg rest hpq
  have q4 := q2.length_eq
  simp only [List.length_map] at q4
  obtain ⟨_, _, m3, m4, m5, _⟩ :=
    send_request_general env.mq_open_ok env.mq_send_ok seg.name pool.segment_size
  by_cases hreq : (send_request_to_cache env.mq_open_ok env.mq_send_ok seg.name
      pool.segment_size).1 < 0
  · have hrw : handle_with_cache env pool
        = { outcome := .returned env.SERVER_FAILURE
            trace := .acquire seg.name
              :: ((send_request_to_cache env.mq_open_ok env.mq_send_ok seg.name
                    pool.segment_size).2.map CEvent.mq ++ [.release seg.name])
            pool := shm_pool_release { pool with shm_queue := rest }
              { seg with used := 1 } } := by
      simp [handle_with_cache, shm_pool_acquire_cons pool seg rest hpq, hreq]
    rw [hrw]
    generalize (send_request_to_cache env.mq_open_ok env.mq_send_ok seg.name
      pool.segment_size).2.map CEvent.mq = M at m3 m4 m5
    refine ⟨rfl, ?_, ?_, q1, q2, q4, ?_, ?_⟩
    · simp [release_count, release_count_append, m4]
    · exact getLast?_append_some [.acquire seg.name] _ _
        (getLast?_append_some M [.release seg.name] (.release seg.name) rfl)
    · simp only [mq_send_count, mq_send_count_append]
      omega
    · simp [gfs_send_results, gfs_send_results_append, m5]
  · have hgfs : ∃ w ∈ gfs_send_results (handle_with_cache env pool).trace, w < 0 := by
      rcases hfail with h | h
      · exact absurd h hreq
      · exact h
    by_cases hmeta : env.metadata_ready = true
    · by_cases hmiss : env.status = 404 ∨ env.file_size = SIZE_MAX
      · exfalso
        obtain ⟨w, hw, _⟩ := hgfs
        simp [handle_with_cache, shm_pool_acquire_cons pool seg rest hpq, hreq, hmeta, hmiss,
          gfs_send_results, gfs_send_results_append, m5] at hw
      · have hrw : handle_with_cache env pool
            = { relay_loop env { seg with used := 1 } env.chunks 0
                  { pool with shm_queue := rest }
                with trace := .acquire seg.name
                  :: ((send_request_to_cache env.mq_open_ok env.mq_send_ok seg.name
                        pool.segment_size).2.map CEvent.mq
                      ++ (.wait_write_complete :: .sendheader .GF_OK env.file_size
                        :: (relay_loop env { seg with used := 1 } env.chunks 0
                              { pool with shm_queue := rest }).trace)) } := by
          simp [handle_with_cache, shm_pool_acquire_cons pool seg rest hpq, hreq, hmeta, hmiss]
        obtain ⟨g1, _, g3, g4⟩ := relay_loop_general env { seg with used := 1 } env.chunks 0
          { pool with shm_queue := rest }
        rw [hrw] at hgfs ⊢
        generalize (send_request_to_cache env.mq_open_ok env.mq_send_ok seg.name
          pool.segment_size).2.map CEvent.mq = M at m3 m4 m5 hgfs ⊢
        generalize relay_loop env { seg with used := 1 } env.chunks 0
          { pool with shm_queue := rest } = r at g1 g3 g4 hgfs ⊢
        simp only [gfs_send_results, gfs_send_results_append, m5, List.nil_append] at hgfs ⊢
        obtain ⟨r1, r2, r3, r4⟩ := g4 hgfs
        rw [r2]
        refine ⟨r1, ?_, ?_, q1, q2, q4, ?_, g3⟩
        · simp [release_count, release_count_append, m4, r3]
        · exact getLast?_append_some [.acquire seg.name] _ _
            (getLast?_append_some M _ _
              (getLast?_append_some
                [.wait_write_complete, .sendheader .GF_OK env.file_size] _ _ r4))
        · simp only [mq_send_count, mq_send_count_append, g1]
          omega
    · exfalso
      obtain ⟨w, hw, _⟩ := hgfs
      simp [handle_with_cache, shm_pool_acquire_cons pool seg rest hpq, hreq, hmeta,
        gfs_send_results, gfs_send_results_append, m5] at hw

theorem failure_handling_witness :
    (handle_with_cache sample_env_relay_fails (shm_pool_init 2 1024)).outcome = .returned (-1)
      ∧ (handle_with_cache sample_env_relay_fails (shm_pool_init 2 1024)).pool.shm_queue
          = [shm_pool_init_segment 1, shm_pool_init_segment 0] :=
  have h := failure_handling sample_env_relay_fails (shm_pool_init 2 1024)
    (shm_pool_init_segment 0) [shm_pool_init_segment 1] (by decide)
    (Or.inr ⟨-1, by decide, by decide⟩)
  ⟨h.1, h.2.2.2.1⟩

/-! ## Producer in isolation -/

theorem sys_read_pos (ans : Option Nat) (content : List Byte) (off count : Nat)
    (h : sys_read ans content off count > 0) :
    0 < (sys_read ans content off count).toNat
      ∧ (sys_read ans content off count).toNat ≤ count
      ∧ off + (sys_read ans content off count).toNat ≤ content.length := by
  cases ans with
  | none => simp [sys_read] at h
  | some k =>
    simp only [sys_read, gt_iff_lt, Int.toNat_ofNat] at h ⊢
    omega

theorem cache_worker_loop_zero (content : List Byte) (C : Nat) (rd : Nat → Option Nat)
    (off : Nat) :
    cache_worker_loop content C rd 0 off
      = if sys_read (rd off) content off C > 0 then
          { finished := false
            trace := [.store_chunk (sys_read (rd off) content off C).toNat
                        (file_bytes content off (sys_read (rd off) content off C).toNat),
                      .post_chunk_ready, .wait_read_complete] }
        else { finished := true, trace := [] } := by
  rw [cache_worker_loop]

theorem cache_worker_loop_succ (content : List Byte) (C : Nat) (rd : Nat → Option Nat)
    (g off : Nat) :
    cache_worker_loop content C rd (g + 1) off
      = if sys_read (rd off) content off C > 0 then
          { cache_worker_loop content C rd g (off + (sys_read (rd off) content off C).toNat)
            with trace :=
              .store_chunk (sys_read (rd off) content off C).toNat
                  (file_bytes content off (sys_read (rd off) content off C).toNat)
                :: .post_chunk_ready :: .wait_read_complete
                :: (cache_worker_loop content C rd g
                      (off + (sys_read (rd off) content off C).toNat)).trace }
        else { finished := true, trace := [] } := by
  rw [cache_worker_loop]

theorem signalled_lengths_append (cur : Nat) (a b : List PEvent)
    (hb : ∀ c, signalled_lengths c b = []) :
    signalled_lengths cur (a ++ b) = signalled_lengths cur a := by
  induction a generalizing cur with
  | nil => simpa using hb cur
  | cons e a ih => cases e <;> simp [signalled_lengths, ih]

theorem chunk_lengths_append (a b : List PEvent) :
    chunk_lengths (a ++ b) = chunk_lengths a ++ chunk_lengths b := by
  induction a with
  | nil => rfl
  | cons e a ih => cases e <;> simp [chunk_lengths, ih]

theorem producer_posts_append (a b : List PEvent) :
    producer_posts (a ++ b) = producer_posts a ++ producer_posts b := by
  induction a with
  | nil => rfl
  | cons e a ih => cases e <;> simp [producer_posts, ih]

/-- Every length the loop signals is positive and at most the segment size, and it
signals each stored length once. -/
theorem cache_worker_loop_bound (content : List Byte) (C : Nat) (rd : Nat → Option Nat) :
    ∀ (grants off cur : Nat),
      (∀ n ∈ signalled_lengths cur (cache_worker_loop content C rd grants off).trace,
          0 < n ∧ n ≤ C)
        ∧ signalled_lengths cur (cache_worker_loop content C rd grants off).trace
            = chunk_lengths (cache_worker_loop content C rd grants off).trace := by
  intro grants
  induction grants with
  | zero =>
    intro off cur
    rw [cache_worker_loop_zero]
    by_cases h : sys_read (rd off) content off C > 0
    · have hb := sys_read_pos _ _ _ _ h
      simp only [h, if_true, signalled_lengths, chunk_lengths, List.mem_singleton]
      exact ⟨fun n hn => by subst hn; exact ⟨hb.1, hb.2.1⟩, trivial⟩
    · simp [h, signalled_lengths, chunk_lengths]
  | succ g ih =>
    intro off cur
    rw [cache_worker_loop_succ]
    by_cases h : sys_read (rd off) content off C > 0
    · have hb := sys_read_pos _ _ _ _ h
      obtain ⟨i1, i2⟩ := ih (off + (sys_read (rd off) content off C).toNat)
        (sys_read (rd off) content off C).toNat
      simp only [h, if_true, signalled_lengths, chunk_lengths, List.mem_cons]
      refine ⟨?_, by rw [i2]⟩
      intro n hn
      rcases hn with hn | hn
      · subst hn; exact ⟨hb.1, hb.2.1⟩
      · exact i1 n hn
    · simp [h, signalled_lengths, chunk_lengths]

/-- C6. Chunk bound: for every lookup outcome, every segment size `C`, every behaviour
of `read` and of the consumer, every value of `current_chunk_size` at a post on
`chunk_ready` satisfies `0 < current_chunk_size ≤ C`; these values are exactly the
values the producer stored, one post per store. -/
theorem chunk_bound (lookup : Option (List Byte)) (C : Nat) (rd : Nat → Option Nat)
    (grants : Nat) (n : Nat)
    (hn : n ∈ signalled_lengths 0 (cache_worker lookup C rd grants).trace) :
    0 < n ∧ n ≤ C
      ∧ signalled_lengths 0 (cache_worker lookup C rd grants).trace
          = chunk_lengths (cache_worker lookup C rd grants).trace := by
  cases lookup with
  | none => simp [cache_worker, signalled_lengths] at hn
  | some content =>
    obtain ⟨h1, h2⟩ := cache_worker_loop_bound content C rd grants 0 0
    have hnil : ∀ c, signalled_lengths c
        (if (cache_worker_loop content C rd grants 0).finished = true
          then [PEvent.post_write_complete] else []) = [] := by
      intro c
      split <;> simp [signalled_lengths]
    have hnil2 : chunk_lengths
        (if (cache_worker_loop content C rd grants 0).finished = true
          then [PEvent.post_write_complete] else []) = [] := by
      split <;> simp [chunk_lengths]
    simp only [cache_worker, signalled_lengths, chunk_lengths, chunk_lengths_append, hnil2,
      List.append_nil, signalled_lengths_append _ _ _ hnil] at hn ⊢
    exact ⟨(h1 n hn).1, (h1 n hn).2, h2⟩

theorem chunk_bound_witness :
    2 ∈ signalled_lengths 0 (cache_worker (some [10, 20, 30]) 2 full_reads 5).trace
      ∧ (0 < 2 ∧ 2 ≤ 2) :=
  have h := chunk_bound (some [10, 20, 30]) 2 full_reads 5 2 (by decide)
  ⟨by decide, h.1, h.2.1⟩

/-- A read into the `NULL` destination never returns a positive count. -/
theorem sys_read_at_null (ans : Option Nat) (content : List Byte) (off count : Nat) :
    ¬ sys_read_at 0 ans content off count > 0 := by
  unfold sys_read_at
  split_ifs <;> omega

/-- A parked consumer cannot move: its own `write_complete` is 0. -/
theorem parked_consumer_blocked (w : World) (s : Sys) (h : s.parked) :
    consumer_step w s = none := by
  obtain ⟨hc, hw, _⟩ := h
  simp [consumer_step, hc, hw]

/-- While the consumer cannot move, the pair moves as the producer does, whichever
party the schedule prefers. -/
theorem step_of_consumer_blocked (w : World) (b : Bool) (s : Sys)
    (hc : consumer_step w s = none) : Sys.step w b s = producer_step w s := by
  cases b <;> cases hp : producer_step w s <;> simp [Sys.step, hc, hp]

/-- A step of the producer keeps the consumer parked and signals no chunk: the read goes
to the `NULL` destination, so the loop body (lines 192-199) is never entered. -/
theorem parked_producer_step (w : World) (s s1 : Sys) (h : s.parked)
    (hstep : producer_step w s = some s1) : s1.parked := by
  obtain ⟨h1, h2, h3, h4, h5, h6, h7, h8, h9, h10⟩ := h
  rcases h10 with ⟨hp, hpc⟩ | ⟨hp, hpc⟩
  · rcases hpc with hpc | hpc | hpc | hpc
    · simp only [producer_step, hpc, Option.some.injEq] at hstep
      subst hstep
      refine ⟨h1, h2, h3, h4, h5, h6, h7, h8, ?_, Or.inl ⟨?_, Or.inr (Or.inl rfl)⟩⟩
      · simp [chunk_lengths_append, h9, chunk_lengths]
      · simp [producer_posts_append, hp, producer_posts]
    · simp only [producer_step, hpc] at hstep
      split at hstep
      · simp only [Option.some.injEq] at hstep
        subst hstep
        refine ⟨h1, h2, h3, h4, h5, h6, h7, h8, ?_, Or.inl ⟨?_, Or.inr (Or.inr (Or.inl rfl))⟩⟩
        · simp [chunk_lengths_append, h9, chunk_lengths]
        · simp [producer_posts_append, hp, producer_posts]
      · simp only [Option.some.injEq] at hstep
        subst hstep
        exact ⟨h1, h2, h3, h4, h5, h6, h7, h8, h9, Or.inl ⟨hp, Or.inr (Or.inr (Or.inr rfl))⟩⟩
    · have hnull := sys_read_at_null (w.rd s.off) w.content s.off w.shm_size
      simp only [producer_step, hpc, h4, hnull, if_false, Option.some.injEq] at hstep
      subst hstep
      exact ⟨h1, h2, h3, rfl, h5, h6, h7, h8, h9, Or.inl ⟨hp, Or.inr (Or.inr (Or.inr rfl))⟩⟩
    · simp only [producer_step, hpc, Option.some.injEq] at hstep
      subst hstep
      refine ⟨h1, h2, h3, h4, h5, h6, h7, h8, ?_, Or.inr ⟨?_, rfl⟩⟩
      · simp [chunk_lengths_append, h9, chunk_lengths]
      · simp [producer_posts_append, hp, producer_posts]
  · simp [producer_step, hpc] at hstep

theorem start_parked (name : String) (r0 : shm_object_t) : (Sys.start name r0).parked :=
  ⟨rfl, rfl, rfl, rfl, rfl, rfl, rfl, rfl, rfl, Or.inl ⟨rfl, Or.inl rfl⟩⟩

/-- From a parked state every execution is the producer running alone, and every state
on the way is parked. -/
theorem parked_run (w : World) (sched : Nat → Bool) :
    ∀ (fuel t : Nat) (s : Sys), s.parked →
      (Sys.run w sched fuel t s).parked
        ∧ Sys.run w sched fuel t s = producer_run w fuel s := by
  intro fuel
  induction fuel with
  | zero => intro t s h; exact ⟨h, rfl⟩
  | succ n ih =>
    intro t s h
    have hstep := step_of_consumer_blocked w (sched t) s (parked_consumer_blocked w s h)
    cases hp : producer_step w s with
    | none =>
      rw [hp] at hstep
      simp only [Sys.run, hstep, producer_run, hp]
      exact ⟨h, trivial⟩
    | some s1 =>
      rw [hp] at hstep
      simp only [Sys.run, hstep, producer_run, hp]
      exact ih (t + 1) s1 (parked_producer_step w s s1 h hp)

theorem producer_run_done (w : World) (fuel : Nat) (s : Sys) (h : s.ppc = .done) :
    producer_run w fuel s = s := by
  cases fuel with
  | zero => rfl
  | succ n => simp [producer_run, producer_step, h]

/-- On a hit the producer alone reaches `Sys.hit_done` in four steps and stays there. -/
theorem producer_run_hit (w : World) (name : String) (r0 : shm_object_t) (fuel : Nat)
    (hfound : w.found = true) :
    producer_run w (fuel + 4) (Sys.start name r0) = Sys.hit_done w name r0 := by
  have hnull : ∀ off, ¬ sys_read_at 0 (w.rd off) w.content off w.shm_size > 0 :=
    fun off => sys_read_at_null _ _ _ _
  simp only [producer_run, producer_step, Sys.start, hfound, if_true, hnull, if_false,
    List.nil_append, List.cons_append]
  rw [producer_run_done w fuel _ rfl]
  rfl

/-- On a miss the producer alone reaches `Sys.miss_done` in three steps and stays
there. -/
theorem producer_run_miss (w : World) (name : String) (r0 : shm_object_t) (fuel : Nat)
    (hfound : w.found = false) :
    producer_run w (fuel + 3) (Sys.start name r0) = Sys.miss_done name r0 := by
  simp only [producer_run, producer_step, Sys.start, hfound, Bool.false_eq_true, if_false,
    List.nil_append, List.cons_append]
  rw [producer_run_done w fuel _ rfl]
  rfl

/-- What holds at every point of every execution from `Sys.start`. -/
theorem run_parked (w : World) (name : String) (r0 : shm_object_t) (sched : Nat → Bool)
    (fuel : Nat) : (Sys.run w sched fuel 0 (Sys.start name r0)).parked :=
  (parked_run w sched fuel 0 _ (start_parked name r0)).1

theorem run_hit (w : World) (name : String) (r0 : shm_object_t) (sched : Nat → Bool)
    (fuel : Nat) (hfound : w.found = true) :
    Sys.run w sched (fuel + 4) 0 (Sys.start name r0) = Sys.hit_done w name r0 := by
  rw [(parked_run w sched (fuel + 4) 0 _ (start_parked name r0)).2]
  exact producer_run_hit w name r0 fuel hfound

theorem run_miss (w : World) (name : String) (r0 : shm_object_t) (sched : Nat → Bool)
    (fuel : Nat) (hfound : w.found = false) :
    Sys.run w sched (fuel + 3) 0 (Sys.start name r0) = Sys.miss_done name r0 := by
  rw [(parked_run w sched (fuel + 3) 0 _ (start_parked name r0)).2]
  exact producer_run_miss w name r0 fuel hfound

/-- C3. Round trip, evaluated on a hit (a 5-byte file, a segment of 1024 bytes): under
every schedule and at every point of the execution no byte has been relayed, so the
relayed bytes are not the source; the consumer is still at its wait on the
`write_complete` of its own header with no header sent and no return; the producer has
stored no chunk, and after four steps it has finished. -/
theorem round_trip_fails (name : String) (r0 : shm_object_t) (sched : Nat → Bool)
    (fuel : Nat) :
    (Sys.run sample_world sched fuel 0 (Sys.start name r0)).relayed = []
      ∧ (Sys.run sample_world sched fuel 0 (Sys.start name r0)).relayed
          ≠ sample_world.content
      ∧ (Sys.run sample_world sched fuel 0 (Sys.start name r0)).cpc = .wait_meta
      ∧ (Sys.run sample_world sched fuel 0 (Sys.start name r0)).header_sent = none
      ∧ (Sys.run sample_world sched fuel 0 (Sys.start name r0)).result = none
      ∧ chunk_lengths (Sys.run sample_world sched fuel 0 (Sys.start name r0)).ptrace = []
      ∧ Sys.run sample_world sched (fuel + 4) 0 (Sys.start name r0)
          = Sys.hit_done sample_world name r0 := by
  obtain ⟨h1, _, _, _, h5, h6, h7, _, h9, _⟩ := run_parked sample_world name r0 sched fuel
  refine ⟨h5, ?_, h1, h6, h7, h9, run_hit sample_world name r0 sched fuel rfl⟩
  rw [h5]
  decide

/-- C5. Miss property, evaluated on a miss (segment of 1024 bytes): under every schedule
the execution ends after three steps in `Sys.miss_done`.  The producer has left status
404 and the size sentinel in the mapped region and posted `write_complete` there once,
never `chunk_ready`.  The consumer is still at its wait on the `write_complete` of its
own header, which is 0; it has sent no header, has not released the segment and has
not returned; neither party can move. -/
theorem miss_consumer_blocked (name : String) (r0 : shm_object_t) (sched : Nat → Bool)
    (fuel : Nat) :
    Sys.run miss_world sched (fuel + 3) 0 (Sys.start name r0) = Sys.miss_done name r0
      ∧ (Sys.run miss_world sched (fuel + 3) 0 (Sys.start name r0)).region.status = 404
      ∧ (Sys.run miss_world sched (fuel + 3) 0 (Sys.start name r0)).region.file_size
          = SIZE_MAX
      ∧ (Sys.run miss_world sched (fuel + 3) 0 (Sys.start name r0)).ptrace
          = [.store_status 404, .store_file_size SIZE_MAX, .post_write_complete]
      ∧ (Sys.run miss_world sched (fuel + 3) 0 (Sys.start name r0)).ppc = .done
      ∧ (Sys.run miss_world sched (fuel + 3) 0 (Sys.start name r0)).cpc = .wait_meta
      ∧ (Sys.run miss_world sched (fuel + 3) 0 (Sys.start name r0)).chdr.write_complete = 0
      ∧ (Sys.run miss_world sched (fuel + 3) 0 (Sys.start name r0)).chdr.status = 0
      ∧ (Sys.run miss_world sched (fuel + 3) 0 (Sys.start name r0)).chdr.used = 1
      ∧ (Sys.run miss_world sched (fuel + 3) 0 (Sys.start name r0)).header_sent = none
      ∧ (Sys.run miss_world sched (fuel + 3) 0 (Sys.start name r0)).relayed = []
      ∧ (Sys.run miss_world sched (fuel + 3) 0 (Sys.start name r0)).result = none
      ∧ producer_step miss_world
          (Sys.run miss_world sched (fuel + 3) 0 (Sys.start name r0)) = none
      ∧ consumer_step miss_world
          (Sys.run miss_world sched (fuel + 3) 0 (Sys.start name r0)) = none := by
  rw [run_miss miss_world name r0 sched fuel rfl]
  exact ⟨rfl, rfl, rfl, rfl, rfl, rfl, rfl, rfl, rfl, rfl, rfl, rfl, rfl, rfl⟩

/-- C8. Ordering within one lease: for every lookup outcome, every segment size, every
content of the region at the start and every schedule, at every point of the execution
the producer has made no post on `chunk_ready` (so none before its post on
`write_complete`) and has stored no chunk; after four steps its posts are exactly one
post on `write_complete`. -/
theorem metadata_before_chunks (w : World) (name : String) (r0 : shm_object_t)
    (sched : Nat → Bool) (fuel : Nat) :
    metadata_first (producer_posts (Sys.run w sched fuel 0 (Sys.start name r0)).ptrace)
        = true
      ∧ Sem.chunk_ready ∉ producer_posts (Sys.run w sched fuel 0 (Sys.start name r0)).ptrace
      ∧ chunk_lengths (Sys.run w sched fuel 0 (Sys.start name r0)).ptrace = []
      ∧ producer_posts (Sys.run w sched (fuel + 4) 0 (Sys.start name r0)).ptrace
          = [.write_complete] := by
  obtain ⟨_, _, _, _, _, _, _, _, h9, h10⟩ := run_parked w name r0 sched fuel
  have hposts : producer_posts (Sys.run w sched (fuel + 4) 0 (Sys.start name r0)).ptrace
      = [.write_complete] := by
    cases hf : w.found with
    | true =>
      rw [run_hit w name r0 sched fuel hf]
      rfl
    | false =>
      have h := run_miss w name r0 sched (fuel + 1) hf
      rw [show fuel + 1 + 3 = fuel + 4 from rfl] at h
      rw [h]
      rfl
  rcases h10 with ⟨hp, _⟩ | ⟨hp, _⟩
  · rw [hp]
    exact ⟨rfl, by simp, h9, hposts⟩
  · rw [hp]
    exact ⟨rfl, by simp, h9, hposts⟩

end GiosCache
